import Mathlib

/-!
Verification of the JSON-candidate extractor (`extractJson`) of the
LIN2002 grading assistant.  Strings are embedded as `List Char`; the
extractor is translated function-by-function from the JavaScript source:
`text.trim()`, `indexOf('{')`, the character-by-character brace-depth
scan with its `inString`/`escape` flags, `lastIndexOf('}')` and
`String.prototype.substring` (which clamps both arguments to the string
length and swaps them when the first exceeds the second).
-/

namespace GradeAssist

/-- The whitespace characters removed by JavaScript `String.prototype.trim`:
the ASCII whitespace/line terminators, NBSP, the Unicode `Zs` space
separators, the line/paragraph separators and the BOM. -/
def jsWhitespace : List Char :=
  [' ', '\t', '\n', '\x0b', '\x0c', '\r',
   '\u00a0', '\u1680', '\u2000', '\u2001', '\u2002', '\u2003', '\u2004',
   '\u2005', '\u2006', '\u2007', '\u2008', '\u2009', '\u200a',
   '\u2028', '\u2029', '\u202f', '\u205f', '\u3000', '\ufeff']

/-- Whether a character counts as whitespace for JavaScript `trim`. -/
def isJsWs (c : Char) : Bool := jsWhitespace.contains c

/-- `text.trim()`: remove leading and trailing whitespace. -/
def jsTrim (cs : List Char) : List Char :=
  ((cs.dropWhile isJsWs).reverse.dropWhile isJsWs).reverse

/-- `jsonString.indexOf(c)`: index of the first occurrence of `c`
(`none` plays the role of JavaScript's `-1`). -/
def firstIdxOf (c : Char) : List Char → Option Nat
  | [] => none
  | x :: xs => if x = c then some 0 else (firstIdxOf c xs).map (· + 1)

/-- `jsonString.lastIndexOf(c)`: index of the last occurrence of `c`
(`none` plays the role of JavaScript's `-1`). -/
def lastIdxOf (c : Char) : List Char → Option Nat
  | [] => none
  | x :: xs =>
    match lastIdxOf c xs with
    | some i => some (i + 1)
    | none => if x = c then some 0 else none

/-- `jsonString.substring(a, b)`: JavaScript clamps both indices to
`[0, length]` and swaps them when the start exceeds the end, then takes
the characters of the half-open interval. -/
def jsSubstring (cs : List Char) (a b : Nat) : List Char :=
  let a2 := min a cs.length
  let b2 := min b cs.length
  if a2 ≤ b2 then (cs.take b2).drop a2 else (cs.take a2).drop b2

/-- The source's escape test `char === '\\\\'`.  In JavaScript `char` is the
one-character string `jsonString[i]` while the literal `'\\\\'` denotes the
TWO-character string backslash-backslash, so the comparison is between a
one-character string and a two-character string.  Embedded faithfully as
the equality of the singleton list with the two-element list. -/
def isEscapeTrigger (c : Char) : Bool := [c] == ['\\', '\\']

/-- The `for` loop of `extractJson`, scanning from the first `{`.
Arguments: remaining characters, `inString`, `escape`, `braceCount`, and
the absolute index `i` of the current character.  Returns `some endIndex`
when `braceCount` returns to zero (at a `}` seen outside a string),
`none` when the loop runs off the end of the input. -/
def scanFrom : List Char → Bool → Bool → Int → Nat → Option Nat
  | [], _, _, _, _ => none
  | c :: rest, inString, escape, braceCount, i =>
    if escape then
      scanFrom rest inString false braceCount (i + 1)
    else if isEscapeTrigger c then
      scanFrom rest inString true braceCount (i + 1)
    else if c = '"' then
      scanFrom rest (!inString) escape braceCount (i + 1)
    else if !inString then
      if c = '{' then
        scanFrom rest inString escape (braceCount + 1) (i + 1)
      else if c = '}' then
        if braceCount - 1 = 0 then some i
        else scanFrom rest inString escape (braceCount - 1) (i + 1)
      else scanFrom rest inString escape braceCount (i + 1)
    else scanFrom rest inString escape braceCount (i + 1)

/-- `extractJson(text)` from the source: trim, find the first `{`
(returning the trimmed text when there is none), run the depth scan from
it; on success slice from the first `{` through the closing `}`; on
failure fall back to the last `}` in the text, and when that does not
exist either, return the trimmed text unchanged. -/
def extractJson (text : List Char) : List Char :=
  let jsonString := jsTrim text
  match firstIdxOf '{' jsonString with
  | none => jsonString
  | some firstBrace =>
    match scanFrom (jsonString.drop firstBrace) false false 0 firstBrace with
    | some endIndex => jsSubstring jsonString firstBrace (endIndex + 1)
    | none =>
      match lastIdxOf '}' jsonString with
      | some lastBrace => jsSubstring jsonString firstBrace (lastBrace + 1)
      | none => jsonString

/-- The scan loop with an explicit step budget (one unit of fuel per loop
iteration), mirroring the bounded `for (let i = firstBrace; i < length; i++)`:
the outer `none` means the budget was exhausted before the loop finished. -/
def scanFromFuel : Nat → List Char → Bool → Bool → Int → Nat → Option (Option Nat)
  | _, [], _, _, _, _ => some none
  | 0, _ :: _, _, _, _, _ => none
  | fuel + 1, c :: rest, inString, escape, braceCount, i =>
    if escape then
      scanFromFuel fuel rest inString false braceCount (i + 1)
    else if isEscapeTrigger c then
      scanFromFuel fuel rest inString true braceCount (i + 1)
    else if c = '"' then
      scanFromFuel fuel rest (!inString) escape braceCount (i + 1)
    else if !inString then
      if c = '{' then
        scanFromFuel fuel rest inString escape (braceCount + 1) (i + 1)
      else if c = '}' then
        if braceCount - 1 = 0 then some (some i)
        else scanFromFuel fuel rest inString escape (braceCount - 1) (i + 1)
      else scanFromFuel fuel rest inString escape braceCount (i + 1)
    else scanFromFuel fuel rest inString escape braceCount (i + 1)

/-- `extractJson` run under the step-budgeted scan, with a budget equal to
the length of the trimmed input (the number of loop iterations available
to the JavaScript `for` loop); `none` would mean some execution needed
more steps than the input has characters. -/
def extractJsonFuel (text : List Char) : Option (List Char) :=
  let jsonString := jsTrim text
  match firstIdxOf '{' jsonString with
  | none => some jsonString
  | some firstBrace =>
    match scanFromFuel jsonString.length (jsonString.drop firstBrace) false false 0 firstBrace with
    | none => none
    | some (some endIndex) => some (jsSubstring jsonString firstBrace (endIndex + 1))
    | some none =>
      match lastIdxOf '}' jsonString with
      | some lastBrace => some (jsSubstring jsonString firstBrace (lastBrace + 1))
      | none => some jsonString

/-- Modelled from the spec: the scan as the specification describes it,
with the next-character-is-escaped flag "set when the current character
is a backslash".  It differs from the source's `scanFrom` in exactly one
place: the escape trigger fires on the single backslash character. -/
def scanFromSpec : List Char → Bool → Bool → Int → Nat → Option Nat
  | [], _, _, _, _ => none
  | c :: rest, inString, escape, braceCount, i =>
    if escape then
      scanFromSpec rest inString false braceCount (i + 1)
    else if c = '\\' then
      scanFromSpec rest inString true braceCount (i + 1)
    else if c = '"' then
      scanFromSpec rest (!inString) escape braceCount (i + 1)
    else if !inString then
      if c = '{' then
        scanFromSpec rest inString escape (braceCount + 1) (i + 1)
      else if c = '}' then
        if braceCount - 1 = 0 then some i
        else scanFromSpec rest inString escape (braceCount - 1) (i + 1)
      else scanFromSpec rest inString escape braceCount (i + 1)
    else scanFromSpec rest inString escape braceCount (i + 1)

/-- Modelled from the spec: `extract_json_candidate` with the
spec-described escape handling (`scanFromSpec`); all other steps as in
the source. -/
def extractJsonSpec (text : List Char) : List Char :=
  let jsonString := jsTrim text
  match firstIdxOf '{' jsonString with
  | none => jsonString
  | some firstBrace =>
    match scanFromSpec (jsonString.drop firstBrace) false false 0 firstBrace with
    | some endIndex => jsSubstring jsonString firstBrace (endIndex + 1)
    | none =>
      match lastIdxOf '}' jsonString with
      | some lastBrace => jsSubstring jsonString firstBrace (lastBrace + 1)
      | none => jsonString

/-- A balanced JSON object in the sense of the spec's glossary: the text
begins with `{` and its brace nesting — tracked outside string literals,
with the escape-aware string tracking the spec describes
(`scanFromSpec`, where a backslash shields the following quote) —
returns to zero net depth precisely at its final character. -/
def balancedObject (cs : List Char) : Bool :=
  match cs with
  | [] => false
  | c :: _ => c = '{' && scanFromSpec cs false false 0 0 == some (cs.length - 1)

/-- The well-formed JSON object (written here as a character list)
consisting of one field named `a` whose string value is the two characters
quote brace, i.e. the raw text  brace quote a quote colon space quote
backslash quote brace quote brace.  Its value string contains an escaped
quote. -/
def inputC1 : List Char :=
  ['{', '"', 'a', '"', ':', ' ', '"', '\\', '"', '}', '"', '}']

/-- A well-formed JSON object with one field `b` whose string value is
the three characters x quote brace (the quote escaped in the raw text),
so the value's raw text contains a literal closing brace inside the
string literal. -/
def inputC2 : List Char :=
  ['{', '"', 'b', '"', ':', '"', 'x', '\\', '"', '}', '"', '}']

/-- The well-formed JSON object used inside `inputC3`: one field `c`
whose string value is y quote brace (with the quote escaped in the raw
text). -/
def objC3 : List Char :=
  ['{', '"', 'c', '"', ':', '"', 'y', '\\', '"', '}', '"', '}']

/-- `objC3` surrounded by brace-free prose on both sides. -/
def inputC3 : List Char :=
  ['n', 'o', 't', 'e', ' '] ++ objC3 ++ [' ', 'e', 'n', 'd']

/-! ### Helper lemmas -/

/-- The escape branch of the source scanner is dead code: a one-character
string never equals the two-character string backslash-backslash. -/
theorem isEscapeTrigger_eq_false (c : Char) : isEscapeTrigger c = false :=
  Bool.and_false (c == '\\')

theorem firstIdxOf_eq_none (c : Char) (cs : List Char) (h : c ∉ cs) :
    firstIdxOf c cs = none := by
  induction cs with
  | nil => rfl
  | cons x xs ih =>
    have hx : ¬x = c := by rintro rfl; exact h (List.mem_cons_self x xs)
    have hxs : c ∉ xs := fun hc => h (List.mem_cons_of_mem x hc)
    simp [firstIdxOf, hx, ih hxs]

theorem firstIdxOf_lt_length :
    ∀ (c : Char) (cs : List Char) (i : Nat),
      firstIdxOf c cs = some i → i < cs.length
  | c, [], i, h => by simp [firstIdxOf] at h
  | c, x :: xs, i, h => by
    simp only [firstIdxOf] at h
    split at h
    · injection h with h
      simp [← h]
    · cases hx : firstIdxOf c xs with
      | none => rw [hx] at h; simp at h
      | some j =>
        rw [hx] at h
        injection h with h
        have h2 : j + 1 = i := h
        have := firstIdxOf_lt_length c xs j hx
        simp only [List.length_cons]
        omega

theorem firstIdxOf_not_mem_take :
    ∀ (c : Char) (cs : List Char) (i : Nat),
      firstIdxOf c cs = some i → c ∉ cs.take i
  | c, [], i, h => by simp [firstIdxOf] at h
  | c, x :: xs, i, h => by
    simp only [firstIdxOf] at h
    split at h
    · injection h with h
      simp [← h]
    · rename_i hx
      cases hj : firstIdxOf c xs with
      | none => rw [hj] at h; simp at h
      | some j =>
        rw [hj] at h
        injection h with h
        have h2 : j + 1 = i := h
        subst h2
        intro hm
        rcases List.mem_cons.mp (by simpa [List.take_succ_cons] using hm) with hcx | hm'
        · exact hx hcx.symm
        · exact firstIdxOf_not_mem_take c xs j hj hm'

theorem lastIdxOf_lt_length :
    ∀ (c : Char) (cs : List Char) (i : Nat),
      lastIdxOf c cs = some i → i < cs.length
  | c, [], i, h => by simp [lastIdxOf] at h
  | c, x :: xs, i, h => by
    simp only [lastIdxOf] at h
    split at h
    · rename_i j hj
      injection h with h
      have := lastIdxOf_lt_length c xs j hj
      simp only [List.length_cons]
      omega
    · split at h
      · injection h with h
        simp [← h]
      · exact absurd h (by simp)

theorem not_mem_of_lastIdxOf_eq_none :
    ∀ (c : Char) (cs : List Char), lastIdxOf c cs = none → c ∉ cs
  | c, [], _ => by simp
  | c, x :: xs, h => by
    simp only [lastIdxOf] at h
    split at h
    · exact absurd h (by simp)
    · rename_i hnone
      split at h
      · exact absurd h (by simp)
      · rename_i hx
        intro hm
        rcases List.mem_cons.mp hm with hcx | hm'
        · exact hx hcx.symm
        · exact not_mem_of_lastIdxOf_eq_none c xs hnone hm'

theorem lastIdxOf_not_mem_drop :
    ∀ (c : Char) (cs : List Char) (i : Nat),
      lastIdxOf c cs = some i → c ∉ cs.drop (i + 1)
  | c, [], i, h => by simp [lastIdxOf] at h
  | c, x :: xs, i, h => by
    simp only [lastIdxOf] at h
    split at h
    · rename_i j hj
      injection h with h
      subst h
      simpa using lastIdxOf_not_mem_drop c xs j hj
    · rename_i hnone
      split at h
      · injection h with h
        subst h
        simpa using not_mem_of_lastIdxOf_eq_none c xs hnone
      · exact absurd h (by simp)

/-- When the scan succeeds, the end index lies inside the scanned suffix
and the character there is a closing brace. -/
theorem scanFrom_some :
    ∀ (cs : List Char) (inString escape : Bool) (braceCount : Int) (i e : Nat),
      scanFrom cs inString escape braceCount i = some e →
      ∃ k, k < cs.length ∧ e = i + k ∧ cs[k]? = some '}'
  | [], _, _, _, _, _, h => by simp [scanFrom] at h
  | c :: rest, inString, escape, braceCount, i, e, h => by
    have step : ∀ (inS esc : Bool) (cnt : Int),
        scanFrom rest inS esc cnt (i + 1) = some e →
        ∃ k, k < (c :: rest).length ∧ e = i + k ∧ (c :: rest)[k]? = some '}' := by
      intro inS esc cnt hr
      obtain ⟨k, hk, he, hg⟩ := scanFrom_some rest inS esc cnt (i + 1) e hr
      refine ⟨k + 1, by simpa using Nat.succ_lt_succ hk, by omega, by simpa using hg⟩
    simp only [scanFrom] at h
    split at h
    · exact step _ _ _ h
    · split at h
      · exact step _ _ _ h
      · split at h
        · exact step _ _ _ h
        · split at h
          · split at h
            · exact step _ _ _ h
            · split at h
              · split at h
                · rename_i hbrace hzero
                  injection h with h
                  subst h
                  exact ⟨0, by simp, by omega, by simp [hbrace]⟩
                · exact step _ _ _ h
              · exact step _ _ _ h
          · exact step _ _ _ h

/-- When the spec-modelled scan succeeds, the end index lies inside the
scanned suffix and the character there is a closing brace. -/
theorem scanFromSpec_some :
    ∀ (cs : List Char) (inString escape : Bool) (braceCount : Int) (i e : Nat),
      scanFromSpec cs inString escape braceCount i = some e →
      ∃ k, k < cs.length ∧ e = i + k ∧ cs[k]? = some '}'
  | [], _, _, _, _, _, h => by simp [scanFromSpec] at h
  | c :: rest, inString, escape, braceCount, i, e, h => by
    have step : ∀ (inS esc : Bool) (cnt : Int),
        scanFromSpec rest inS esc cnt (i + 1) = some e →
        ∃ k, k < (c :: rest).length ∧ e = i + k ∧ (c :: rest)[k]? = some '}' := by
      intro inS esc cnt hr
      obtain ⟨k, hk, he, hg⟩ := scanFromSpec_some rest inS esc cnt (i + 1) e hr
      refine ⟨k + 1, by simpa using Nat.succ_lt_succ hk, by omega, by simpa using hg⟩
    simp only [scanFromSpec] at h
    split at h
    · exact step _ _ _ h
    · split at h
      · exact step _ _ _ h
      · split at h
        · exact step _ _ _ h
        · split at h
          · split at h
            · exact step _ _ _ h
            · split at h
              · split at h
                · rename_i hbrace hzero
                  injection h with h
                  subst h
                  exact ⟨0, by simp, by omega, by simp [hbrace]⟩
                · exact step _ _ _ h
              · exact step _ _ _ h
          · exact step _ _ _ h

/-- The scan's branching never inspects the running index, so shifting
the starting index shifts a successful result by the same amount. -/
theorem scanFrom_shift :
    ∀ (cs : List Char) (inString escape : Bool) (braceCount : Int) (i j : Nat),
      scanFrom cs inString escape braceCount (i + j) =
        (scanFrom cs inString escape braceCount i).map (· + j)
  | [], _, _, _, _, _ => rfl
  | c :: rest, inString, escape, braceCount, i, j => by
    have step : ∀ (s e : Bool) (b : Int),
        scanFrom rest s e b (i + j + 1) = (scanFrom rest s e b (i + 1)).map (· + j) := by
      intro s e b
      have h : i + j + 1 = (i + 1) + j := by omega
      rw [h]
      exact scanFrom_shift rest s e b (i + 1) j
    simp only [scanFrom]
    split_ifs <;> first | rfl | exact step _ _ _

/-- A scan of a concatenation that succeeds inside the first part also
succeeds, at the same place, on the first part alone. -/
theorem scanFrom_append_some :
    ∀ (u v : List Char) (inString escape : Bool) (braceCount : Int) (i e : Nat),
      scanFrom (u ++ v) inString escape braceCount i = some e →
      e < i + u.length →
      scanFrom u inString escape braceCount i = some e
  | [], v, inString, escape, braceCount, i, e, h, hb => by
    exfalso
    obtain ⟨k, hk, hek, hgk⟩ := scanFrom_some v inString escape braceCount i e h
    simp only [List.length_nil] at hb
    omega
  | c :: u, v, inString, escape, braceCount, i, e, h, hb => by
    rw [List.cons_append] at h
    simp only [scanFrom] at h ⊢
    split_ifs at h ⊢ <;>
      first
        | exact h
        | exact scanFrom_append_some u v _ _ _ _ _ h
            (by simp only [List.length_cons] at hb; omega)

/-- A scan of a concatenation that fails also fails on the first part
alone. -/
theorem scanFrom_append_none :
    ∀ (u v : List Char) (inString escape : Bool) (braceCount : Int) (i : Nat),
      scanFrom (u ++ v) inString escape braceCount i = none →
      scanFrom u inString escape braceCount i = none
  | [], _, _, _, _, _, _ => rfl
  | c :: u, v, inString, escape, braceCount, i, h => by
    rw [List.cons_append] at h
    simp only [scanFrom] at h ⊢
    split_ifs at h ⊢ <;>
      first
        | exact h
        | exact scanFrom_append_none u v _ _ _ _ h

/-- With a non-positive depth and no opening brace in the text the depth
can never pass through one, so the scan cannot succeed. -/
theorem scanFrom_eq_none_of_no_open :
    ∀ (cs : List Char) (inString escape : Bool) (braceCount : Int) (i : Nat),
      braceCount ≤ 0 → '{' ∉ cs →
      scanFrom cs inString escape braceCount i = none
  | [], _, _, _, _, _, _ => rfl
  | c :: rest, inString, escape, braceCount, i, hb, hm => by
    have hc : c ≠ '{' := fun hc => hm (hc ▸ List.mem_cons_self c rest)
    have hm2 : '{' ∉ rest := fun hx => hm (List.mem_cons_of_mem c hx)
    simp only [scanFrom]
    split_ifs <;>
      first
        | exact scanFrom_eq_none_of_no_open rest _ _ _ _ hb hm2
        | exact absurd ‹c = '{'› hc
        | exact absurd ‹braceCount - 1 = 0› (by omega)
        | exact scanFrom_eq_none_of_no_open rest _ _ _ _ (by omega) hm2

/-- The scan can only succeed at a closing brace, so it fails on a text
that contains none. -/
theorem scanFrom_eq_none_of_no_close :
    ∀ (cs : List Char) (inString escape : Bool) (braceCount : Int) (i : Nat),
      '}' ∉ cs → scanFrom cs inString escape braceCount i = none
  | [], _, _, _, _, _ => rfl
  | c :: rest, inString, escape, braceCount, i, hm => by
    have hc : c ≠ '}' := fun hc => hm (hc ▸ List.mem_cons_self c rest)
    have hm2 : '}' ∉ rest := fun hx => hm (List.mem_cons_of_mem c hx)
    simp only [scanFrom]
    split_ifs <;>
      exact scanFrom_eq_none_of_no_close rest _ _ _ _ hm2

/-- The step-budgeted scan loop completes whenever the budget covers the
number of remaining characters, and then agrees with `scanFrom`. -/
theorem scanFromFuel_complete :
    ∀ (cs : List Char) (fuel : Nat) (inString escape : Bool) (braceCount : Int) (i : Nat),
      cs.length ≤ fuel →
      scanFromFuel fuel cs inString escape braceCount i =
        some (scanFrom cs inString escape braceCount i)
  | [], fuel, _, _, _, _, _ => by cases fuel <;> rfl
  | c :: rest, 0, _, _, _, _, h => by simp at h
  | c :: rest, fuel + 1, inString, escape, braceCount, i, h => by
    have hr : rest.length ≤ fuel := by
      simpa using Nat.lt_succ_iff.mp (Nat.lt_of_lt_of_le (Nat.lt_succ_self _) (by simpa using h))
    simp only [scanFrom, scanFromFuel]
    split_ifs <;> first
      | rfl
      | exact scanFromFuel_complete rest fuel _ _ _ _ hr

/-- The trimmed text is a contiguous substring of the original text. -/
theorem jsTrim_isInfix (cs : List Char) : List.IsInfix (jsTrim cs) cs := by
  have h1 : List.IsSuffix (cs.dropWhile isJsWs) cs := List.dropWhile_suffix _
  have h2 : List.IsSuffix ((cs.dropWhile isJsWs).reverse.dropWhile isJsWs)
      (cs.dropWhile isJsWs).reverse := List.dropWhile_suffix _
  have h3 : List.IsPrefix (jsTrim cs) (cs.dropWhile isJsWs) := by
    have := List.reverse_prefix.mpr h2
    rwa [List.reverse_reverse] at this
  exact h3.isInfix.trans h1.isInfix

/-- Trimming a text whose first and last characters are not whitespace
leaves it unchanged. -/
theorem jsTrim_eq_self (cs : List Char)
    (hh : ∀ c ∈ cs.head?, isJsWs c = false)
    (hl : ∀ c ∈ cs.getLast?, isJsWs c = false) :
    jsTrim cs = cs := by
  have h1 : cs.dropWhile isJsWs = cs := by
    cases cs with
    | nil => rfl
    | cons a l =>
      have ha : isJsWs a = false := hh a rfl
      simp [List.dropWhile_cons, ha]
  have h2 : cs.reverse.dropWhile isJsWs = cs.reverse := by
    cases hrev : cs.reverse with
    | nil => rfl
    | cons a l =>
      have ha : cs.getLast? = some a := by
        rw [← List.head?_reverse, hrev]; rfl
      have ha2 : isJsWs a = false := hl a ha
      rw [List.dropWhile_cons, ha2]
      simp
  rw [jsTrim, h1, h2, List.reverse_reverse]

/-- Any `substring` slice is a contiguous substring of the text. -/
theorem jsSubstring_isInfix (cs : List Char) (a b : Nat) :
    List.IsInfix (jsSubstring cs a b) cs := by
  unfold jsSubstring
  dsimp only
  split <;>
    exact (List.drop_suffix _ _).isInfix.trans (List.take_prefix _ _).isInfix

/-- `substring` in the ordered, in-range case. -/
theorem jsSubstring_of_le (cs : List Char) (a b : Nat)
    (hab : a ≤ b) (hb : b ≤ cs.length) :
    jsSubstring cs a b = (cs.take b).drop a := by
  unfold jsSubstring
  rw [Nat.min_eq_left (hab.trans hb), Nat.min_eq_left hb, if_pos hab]

/-- `substring` in the swapped case: JavaScript exchanges the two
arguments when the start index exceeds the end index. -/
theorem jsSubstring_of_ge (cs : List Char) (a b : Nat)
    (hab : b ≤ a) (ha : a ≤ cs.length) :
    jsSubstring cs a b = (cs.take a).drop b := by
  unfold jsSubstring
  rw [Nat.min_eq_left ha, Nat.min_eq_left (hab.trans ha)]
  rcases Nat.eq_or_lt_of_le hab with heq | hlt
  · subst heq
    simp
  · rw [if_neg (by omega)]

/-- The converse direction of `firstIdxOf_eq_none`. -/
theorem not_mem_of_firstIdxOf_eq_none :
    ∀ (c : Char) (cs : List Char), firstIdxOf c cs = none → c ∉ cs
  | c, [], _ => by simp
  | c, x :: xs, h => by
    simp only [firstIdxOf] at h
    split at h
    · exact absurd h (by simp)
    · rename_i hx
      cases hj : firstIdxOf c xs with
      | some j => rw [hj] at h; exact absurd h (by simp)
      | none =>
        intro hm
        rcases List.mem_cons.mp hm with hcx | hm2
        · exact hx hcx.symm
        · exact not_mem_of_firstIdxOf_eq_none c xs hj hm2

/-- A text whose last character is `c` has its last occurrence of `c` at
the last position. -/
theorem lastIdxOf_of_getLast :
    ∀ (c : Char) (cs : List Char), cs.getLast? = some c →
      lastIdxOf c cs = some (cs.length - 1)
  | c, [], h => by simp at h
  | c, [x], h => by
    simp only [List.getLast?_singleton, Option.some.injEq] at h
    subst h
    simp [lastIdxOf]
  | c, x :: y :: ys, h => by
    have h2 : (y :: ys).getLast? = some c := by
      simpa [List.getLast?_cons_cons] using h
    have ih := lastIdxOf_of_getLast c (y :: ys) h2
    have step : lastIdxOf c (x :: y :: ys) =
        match lastIdxOf c (y :: ys) with
        | some i => some (i + 1)
        | none => if x = c then some 0 else none := rfl
    rw [step, ih]
    simp

/-- Every output of the extractor is scan-faithful: running the source
scanner on it from a clean state either fails or succeeds exactly at its
final character.  (A successful slice re-scans to its own end because the
scanner's branching is oblivious to the running index; a fallback slice
is a prefix of a scan that never returned to zero depth, so it fails
again; the remaining outputs contain no opening brace, or no closing
brace, and a scan of those can never bring the depth through one.) -/
theorem scanFrom_extractJson (x : List Char) :
    scanFrom (extractJson x) false false 0 0 = none ∨
    scanFrom (extractJson x) false false 0 0 = some ((extractJson x).length - 1) := by
  cases h1 : firstIdxOf '{' (jsTrim x) with
  | none =>
    left
    have hmem : '{' ∉ jsTrim x := not_mem_of_firstIdxOf_eq_none _ _ h1
    have hy : extractJson x = jsTrim x := by simp only [extractJson, h1]
    rw [hy]
    exact scanFrom_eq_none_of_no_open _ _ _ _ _ le_rfl hmem
  | some f =>
    have hf : f < (jsTrim x).length := firstIdxOf_lt_length _ _ _ h1
    cases h2 : scanFrom ((jsTrim x).drop f) false false 0 f with
    | some e =>
      right
      obtain ⟨k, hk, hek, hgk⟩ := scanFrom_some _ _ _ _ _ _ h2
      have hdl : ((jsTrim x).drop f).length = (jsTrim x).length - f := List.length_drop _ _
      have hy : extractJson x = ((jsTrim x).drop f).take (k + 1) := by
        simp only [extractJson, h1, h2]
        rw [jsSubstring_of_le _ _ _ (by omega) (by omega), List.drop_take]
        congr 1
        omega
      have htl : (((jsTrim x).drop f).take (k + 1)).length = k + 1 := by
        rw [List.length_take]
        omega
      have hsplit : ((jsTrim x).drop f).take (k + 1) ++ ((jsTrim x).drop f).drop (k + 1) =
          (jsTrim x).drop f := List.take_append_drop _ _
      have h2b : scanFrom (((jsTrim x).drop f).take (k + 1) ++
          ((jsTrim x).drop f).drop (k + 1)) false false 0 f = some e := by
        rw [hsplit]
        exact h2
      have hb1 : scanFrom (((jsTrim x).drop f).take (k + 1)) false false 0 f = some e :=
        scanFrom_append_some _ _ _ _ _ _ _ h2b (by rw [htl]; omega)
      have hshift := scanFrom_shift (((jsTrim x).drop f).take (k + 1)) false false 0 0 f
      rw [Nat.zero_add] at hshift
      rw [hshift] at hb1
      cases hbase : scanFrom (((jsTrim x).drop f).take (k + 1)) false false 0 0 with
      | none => rw [hbase] at hb1; simp at hb1
      | some d =>
        rw [hbase] at hb1
        injection hb1 with hb1
        have hde : d + f = e := hb1
        rw [hy, hbase, htl]
        simp only [Option.some.injEq]
        omega
    | none =>
      cases h3 : lastIdxOf '}' (jsTrim x) with
      | none =>
        left
        have hmem : '}' ∉ jsTrim x := not_mem_of_lastIdxOf_eq_none _ _ h3
        have hy : extractJson x = jsTrim x := by simp only [extractJson, h1, h2, h3]
        rw [hy]
        exact scanFrom_eq_none_of_no_close _ _ _ _ _ hmem
      | some l =>
        left
        have hl : l < (jsTrim x).length := lastIdxOf_lt_length _ _ _ h3
        by_cases hfl : f ≤ l
        · have hy : extractJson x = ((jsTrim x).drop f).take (l + 1 - f) := by
            simp only [extractJson, h1, h2, h3]
            rw [jsSubstring_of_le _ _ _ (by omega) (by omega), List.drop_take]
          have hsplit : ((jsTrim x).drop f).take (l + 1 - f) ++
              ((jsTrim x).drop f).drop (l + 1 - f) = (jsTrim x).drop f :=
            List.take_append_drop _ _
          have h2b : scanFrom (((jsTrim x).drop f).take (l + 1 - f) ++
              ((jsTrim x).drop f).drop (l + 1 - f)) false false 0 f = none := by
            rw [hsplit]
            exact h2
          have hb2 : scanFrom (((jsTrim x).drop f).take (l + 1 - f)) false false 0 f = none :=
            scanFrom_append_none _ _ _ _ _ _ h2b
          have hshift := scanFrom_shift (((jsTrim x).drop f).take (l + 1 - f)) false false 0 0 f
          rw [Nat.zero_add] at hshift
          rw [hshift] at hb2
          rw [hy]
          cases hbase : scanFrom (((jsTrim x).drop f).take (l + 1 - f)) false false 0 0 with
          | none => rfl
          | some d => rw [hbase] at hb2; simp at hb2
        · have hy : extractJson x = ((jsTrim x).take f).drop (l + 1) := by
            simp only [extractJson, h1, h2, h3]
            exact jsSubstring_of_ge _ _ _ (by omega) (by omega)
          have hmem : '{' ∉ extractJson x := by
            rw [hy]
            intro hm
            exact firstIdxOf_not_mem_take _ _ _ h1 (List.drop_subset _ _ hm)
          exact scanFrom_eq_none_of_no_open _ _ _ _ _ le_rfl hmem

/-- A balanced object (in the sense of the spec-glossary predicate
`balancedObject`) on which the source scanner is scan-faithful is
returned unchanged by the extractor: when the source scan succeeds it
does so exactly at the final character and the success slice is the
whole text; when it fails, the fallback slices from the first opening brace to the
last closing brace, which is the final character: again the whole
text. -/
theorem extractJson_of_balanced (y : List Char)
    (h : balancedObject y = true)
    (hscan : scanFrom y false false 0 0 = none ∨
      scanFrom y false false 0 0 = some (y.length - 1)) :
    extractJson y = y := by
  cases y with
  | nil => simp [balancedObject] at h
  | cons c rest =>
    simp only [balancedObject, Bool.and_eq_true, decide_eq_true_eq, beq_iff_eq] at h
    obtain ⟨rfl, hspec⟩ := h
    have hlen : ('{' :: rest).length - 1 = rest.length := by simp
    rw [hlen] at hspec
    obtain ⟨k, hk, he, hg⟩ := scanFromSpec_some _ _ _ _ _ _ hspec
    have hk2 : k = rest.length := by omega
    subst hk2
    have hlast : ('{' :: rest).getLast? = some '}' := by
      rw [List.getLast?_eq_getElem?]
      simpa using hg
    have htrim : jsTrim ('{' :: rest) = '{' :: rest := by
      apply jsTrim_eq_self
      · intro a ha
        simp only [List.head?_cons, Option.mem_def, Option.some.injEq] at ha
        subst ha
        decide
      · intro a ha
        rw [hlast] at ha
        simp only [Option.mem_def, Option.some.injEq] at ha
        subst ha
        decide
    have hfirst : firstIdxOf '{' ('{' :: rest) = some 0 := by
      simp [firstIdxOf]
    rcases hscan with hnone | hsome
    · have hlastIdx : lastIdxOf '}' ('{' :: rest) = some (('{' :: rest).length - 1) :=
        lastIdxOf_of_getLast _ _ hlast
      rw [hlen] at hlastIdx
      simp only [extractJson, htrim, hfirst, List.drop_zero, hnone, hlastIdx]
      rw [jsSubstring_of_le _ _ _ (Nat.zero_le _) (by simp)]
      simp
    · rw [hlen] at hsome
      simp only [extractJson, htrim, hfirst, List.drop_zero, hsome]
      rw [jsSubstring_of_le _ _ _ (Nat.zero_le _) (by simp)]
      simp

/-! ### The claims -/

/-- Claim C1 (code bug): the spec says the escape flag makes an escaped
quote inert, and that extraction returns every well-formed object whose
string values contain escaped quotes unchanged.  In the source the escape
branch compares the one-character string `char` with the two-character
string backslash-backslash, so it never fires; on `inputC1` the escaped
quote toggles the in-string state, the closing brace inside the string
value ends the scan early, and the extractor returns the first ten
characters instead of the whole object, while the spec-modelled
extractor returns the object unchanged. -/
theorem extractJson_escaped_quote_divergence :
    (∀ c : Char, isEscapeTrigger c = false) ∧
    extractJson inputC1 = inputC1.take 10 ∧
    extractJson inputC1 ≠ inputC1 ∧
    extractJsonSpec inputC1 = inputC1 :=
  ⟨isEscapeTrigger_eq_false, by decide, by decide, by decide⟩

/-- Claim C2 (code bug): on `inputC2`, a well-formed object whose string
value contains a literal closing brace, the dead escape branch lets the
escaped quote flip the in-string state, so the brace inside the string
literal is counted by the depth scan (the scan ends at index 9, the brace
inside the string), and the extractor returns a strict prefix of the
object; the spec-modelled extractor returns the object unchanged. -/
theorem extractJson_brace_in_string_divergence :
    scanFrom inputC2 false false 0 0 = some 9 ∧
    extractJson inputC2 = inputC2.take 10 ∧
    extractJson inputC2 ≠ inputC2 ∧
    extractJsonSpec inputC2 = inputC2 :=
  ⟨by decide, by decide, by decide, by decide⟩

/-- Claim C3 (code bug): `inputC3` is the well-formed object `objC3`
surrounded by brace-free prose, yet the extractor does not return
`objC3`: because the escape branch is dead, the scan stops at the brace
inside the string value and only the first ten characters of `objC3` are
returned.  The spec-modelled extractor returns exactly `objC3`. -/
theorem extractJson_prose_wrapped_divergence :
    extractJson inputC3 = objC3.take 10 ∧
    extractJson inputC3 ≠ objC3 ∧
    extractJsonSpec inputC3 = objC3 :=
  ⟨by decide, by decide, by decide⟩

/-- Claim C4 (corrected): when the strict scan fails, a closing brace
exists, and additionally the last closing brace does not precede the
first opening brace, the extractor returns the substring from the first
opening brace through the last closing brace inclusive.  (Without the
added ordering hypothesis the claim is false: see the counterexample.) -/
theorem extractJson_fallback_last_brace (s : List Char) (f l : Nat)
    (h1 : firstIdxOf '{' (jsTrim s) = some f)
    (h2 : scanFrom ((jsTrim s).drop f) false false 0 f = none)
    (h3 : lastIdxOf '}' (jsTrim s) = some l)
    (h4 : f ≤ l) :
    extractJson s = ((jsTrim s).take (l + 1)).drop f := by
  have hl : l < (jsTrim s).length := lastIdxOf_lt_length _ _ _ h3
  simp only [extractJson, h1, h2, h3]
  exact jsSubstring_of_le _ _ _ (by omega) (by omega)

/-- Witness for the amended C4 at a concrete truncated input. -/
theorem extractJson_fallback_last_brace_witness :
    (firstIdxOf '{' (jsTrim ['a', '{', '"', '}']) = some 1 ∧
     scanFrom ((jsTrim ['a', '{', '"', '}']).drop 1) false false 0 1 = none ∧
     lastIdxOf '}' (jsTrim ['a', '{', '"', '}']) = some 3 ∧ 1 ≤ 3) ∧
    extractJson ['a', '{', '"', '}'] = ((jsTrim ['a', '{', '"', '}']).take (3 + 1)).drop 1 :=
  ⟨⟨by decide, by decide, by decide, by decide⟩,
    extractJson_fallback_last_brace ['a', '{', '"', '}'] 1 3
      (by decide) (by decide) (by decide) (by decide)⟩

/-- Counterexample to Claim C4 as stated: the scan fails and a closing
brace occurs in the text, but the last closing brace lies before the
first opening brace, so `substring` swaps its arguments and the result
is the text between them, not the substring from the first opening brace
through the last closing brace. -/
theorem extractJson_fallback_swap_cex :
    firstIdxOf '{' (jsTrim ['}', ' ', ' ', '{', 'x']) = some 3 ∧
    scanFrom ((jsTrim ['}', ' ', ' ', '{', 'x']).drop 3) false false 0 3 = none ∧
    lastIdxOf '}' (jsTrim ['}', ' ', ' ', '{', 'x']) = some 0 ∧
    extractJson ['}', ' ', ' ', '{', 'x'] = [' ', ' '] ∧
    extractJson ['}', ' ', ' ', '{', 'x'] ≠
      ((jsTrim ['}', ' ', ' ', '{', 'x']).take (0 + 1)).drop 3 :=
  ⟨by decide, by decide, by decide, by decide, by decide⟩

/-- Claim C5 (corrected): when the strict scan fails and no closing brace
occurs anywhere in the trimmed text, the extractor returns the whole
trimmed input unchanged — including any prose before the first opening
brace — not merely the text from the first opening brace onwards. -/
theorem extractJson_no_close_trimmed (s : List Char) (f : Nat)
    (h1 : firstIdxOf '{' (jsTrim s) = some f)
    (h2 : scanFrom ((jsTrim s).drop f) false false 0 f = none)
    (h3 : lastIdxOf '}' (jsTrim s) = none) :
    extractJson s = jsTrim s := by
  simp only [extractJson, h1, h2, h3]

/-- Witness for the amended C5 at a concrete truncated input. -/
theorem extractJson_no_close_trimmed_witness :
    (firstIdxOf '{' (jsTrim ['{', 'a']) = some 0 ∧
     scanFrom ((jsTrim ['{', 'a']).drop 0) false false 0 0 = none ∧
     lastIdxOf '}' (jsTrim ['{', 'a']) = none) ∧
    extractJson ['{', 'a'] = jsTrim ['{', 'a'] :=
  ⟨⟨by decide, by decide, by decide⟩,
    extractJson_no_close_trimmed ['{', 'a'] 0 (by decide) (by decide) (by decide)⟩

/-- Counterexample to Claim C5 as stated: with prose before the first
opening brace, a failing scan and no closing brace anywhere, the code
returns the whole trimmed text, not the text from the first opening
brace to the end. -/
theorem extractJson_no_close_cex :
    firstIdxOf '{' (jsTrim ['x', ' ', '{', 'a']) = some 2 ∧
    scanFrom ((jsTrim ['x', ' ', '{', 'a']).drop 2) false false 0 2 = none ∧
    lastIdxOf '}' (jsTrim ['x', ' ', '{', 'a']) = none ∧
    extractJson ['x', ' ', '{', 'a'] = ['x', ' ', '{', 'a'] ∧
    extractJson ['x', ' ', '{', 'a'] ≠ (jsTrim ['x', ' ', '{', 'a']).drop 2 :=
  ⟨by decide, by decide, by decide, by decide, by decide⟩

/-- Claim C6 (confirmed): an input containing no opening brace at all is
returned trimmed and otherwise unchanged; the trimmed text is a
contiguous substring of the input (characters preserved in order). -/
theorem extractJson_no_open_brace (s : List Char) (h : '{' ∉ s) :
    extractJson s = jsTrim s ∧ List.IsInfix (jsTrim s) s := by
  refine ⟨?_, jsTrim_isInfix s⟩
  have h2 : '{' ∉ jsTrim s := fun hm => h ((jsTrim_isInfix s).subset hm)
  simp only [extractJson, firstIdxOf_eq_none _ _ h2]

/-- Witness for C6 at a concrete brace-free input. -/
theorem extractJson_no_open_brace_witness :
    '{' ∉ ['a', ' '] ∧
    (extractJson ['a', ' '] = jsTrim ['a', ' '] ∧
     List.IsInfix (jsTrim ['a', ' ']) ['a', ' ']) :=
  ⟨by decide, extractJson_no_open_brace ['a', ' '] (by decide)⟩

/-- Claim C7 (confirmed): whenever the extractor's output is a balanced
JSON object — it begins with an opening brace and its brace nesting,
tracked outside string literals with the spec's escape-aware string
tracking, returns to zero net depth exactly at its final character —
applying the extractor again returns it unchanged. -/
theorem extractJson_idempotent (x : List Char)
    (h : balancedObject (extractJson x) = true) :
    extractJson (extractJson x) = extractJson x :=
  extractJson_of_balanced (extractJson x) h (scanFrom_extractJson x)

/-- Witness for C7 at a concrete input. -/
theorem extractJson_idempotent_witness :
    balancedObject (extractJson ['{', '}']) = true ∧
    extractJson (extractJson ['{', '}']) = extractJson ['{', '}'] :=
  ⟨by decide, extractJson_idempotent ['{', '}'] (by decide)⟩

/-- Claim C8 (confirmed, totality): for every input the bounded scan loop
terminates within as many iterations as the trimmed input has
characters, and the extractor produces a result — the step-budgeted
run `extractJsonFuel` never exhausts its budget and agrees with
`extractJson` on every input. -/
theorem extractJson_total (s : List Char) :
    extractJsonFuel s = some (extractJson s) := by
  cases h1 : firstIdxOf '{' (jsTrim s) with
  | none => simp only [extractJson, extractJsonFuel, h1]
  | some f =>
    have hc := scanFromFuel_complete ((jsTrim s).drop f) (jsTrim s).length false false 0 f
      (by simp [List.length_drop])
    cases h2 : scanFrom ((jsTrim s).drop f) false false 0 f with
    | some e => simp only [extractJson, extractJsonFuel, h1, hc, h2]
    | none =>
      cases h3 : lastIdxOf '}' (jsTrim s) with
      | some l => simp only [extractJson, extractJsonFuel, h1, hc, h2, h3]
      | none => simp only [extractJson, extractJsonFuel, h1, hc, h2, h3]

/-- Claim C9 (confirmed): whatever path the extractor takes, its result
is a contiguous substring of the whitespace-trimmed input. -/
theorem extractJson_infix_trimmed (s : List Char) :
    List.IsInfix (extractJson s) (jsTrim s) := by
  simp only [extractJson]
  split
  · exact List.infix_refl _
  · split
    · exact jsSubstring_isInfix _ _ _
    · split
      · exact jsSubstring_isInfix _ _ _
      · exact List.infix_refl _

/-- Claim C10 (confirmed): when the scan fails and the last closing brace
precedes the first opening brace, `substring` swaps its arguments and the
extractor returns exactly the characters strictly between the last
closing brace and the first opening brace, which therefore contain no
opening brace (all precede the first one) and no closing brace (all
follow the last one). -/
theorem extractJson_swap_between (s : List Char) (f l : Nat)
    (h1 : firstIdxOf '{' (jsTrim s) = some f)
    (h2 : scanFrom ((jsTrim s).drop f) false false 0 f = none)
    (h3 : lastIdxOf '}' (jsTrim s) = some l)
    (h4 : l < f) :
    extractJson s = ((jsTrim s).take f).drop (l + 1) ∧
      '{' ∉ extractJson s ∧ '}' ∉ extractJson s := by
  have hf : f < (jsTrim s).length := firstIdxOf_lt_length _ _ _ h1
  have heq : extractJson s = ((jsTrim s).take f).drop (l + 1) := by
    simp only [extractJson, h1, h2, h3]
    exact jsSubstring_of_ge _ _ _ (by omega) (by omega)
  refine ⟨heq, ?_, ?_⟩
  · rw [heq]
    intro hm
    exact firstIdxOf_not_mem_take _ _ _ h1 (List.drop_subset _ _ hm)
  · rw [heq]
    intro hm
    rw [List.drop_take] at hm
    exact lastIdxOf_not_mem_drop _ _ _ h3 (List.take_subset _ _ hm)

/-- Witness for C10 at a concrete input whose only closing brace precedes
its first opening brace. -/
theorem extractJson_swap_between_witness :
    (firstIdxOf '{' (jsTrim ['}', 'q', '{', 'p']) = some 2 ∧
     scanFrom ((jsTrim ['}', 'q', '{', 'p']).drop 2) false false 0 2 = none ∧
     lastIdxOf '}' (jsTrim ['}', 'q', '{', 'p']) = some 0 ∧ 0 < 2) ∧
    (extractJson ['}', 'q', '{', 'p'] = ((jsTrim ['}', 'q', '{', 'p']).take 2).drop (0 + 1) ∧
     '{' ∉ extractJson ['}', 'q', '{', 'p'] ∧ '}' ∉ extractJson ['}', 'q', '{', 'p']) :=
  ⟨⟨by decide, by decide, by decide, by decide⟩,
    extractJson_swap_between ['}', 'q', '{', 'p'] 2 0
      (by decide) (by decide) (by decide) (by decide)⟩

end GradeAssist
